import Mathlib

/-!
Verification of the GenAi-Summariser core pipeline: chunking, best-answer
selection, highlighting and challenge-mode answer evaluation.

Documents and strings are modelled as `List Char`; Python `int` values that
may be negative are modelled as `ℤ`, non-negative indices as `ℕ`; the
floating-point confidence scores are modelled as `ℚ` (only order comparisons
on them matter to the code under study).  The external question-answering
model is an opaque parameter returning `Option` (`none` models an invocation
that raises).
-/

/-- Fuelled worker for `pySplit` (structural recursion on the fuel, so that
the function reduces inside the kernel; the fuel is immaterial as soon as it
bounds the length of the input). -/
def pySplitF : ℕ → List Char → List (List Char)
  | 0, _ => []
  | _ + 1, [] => []
  | fuel + 1, c :: cs =>
    if c.isWhitespace then pySplitF fuel cs
    else (c :: cs.takeWhile (fun d => !d.isWhitespace)) ::
      pySplitF fuel (cs.dropWhile (fun d => !d.isWhitespace))

/-- Python `str.split()`: split on runs of whitespace, dropping empty pieces. -/
def pySplit (s : List Char) : List (List Char) := pySplitF s.length s

/-- Python `' '.join(ws)`. -/
def joinWords : List (List Char) → List Char
  | [] => []
  | [w] => w
  | w :: w' :: ws => w ++ ' ' :: joinWords (w' :: ws)

/-- Python `sum(len(w) + 1 for w in ws)`. -/
def sumL : List (List Char) → ℕ
  | [] => 0
  | w :: ws => (w.length + 1) + sumL ws

/-- Python `str.lower()` (per-character model). -/
def lowerStr (s : List Char) : List Char := s.map Char.toLower

/-- Python `str.strip()`: remove leading and trailing whitespace. -/
def pyStrip (s : List Char) : List Char :=
  ((s.dropWhile Char.isWhitespace).reverse.dropWhile Char.isWhitespace).reverse

/-- Clamp one Python slice bound (step 1) for a sequence of length `n`. -/
def pyBound (n : ℕ) (i : ℤ) : ℕ :=
  if i < 0 then (i + n).toNat else min i.toNat n

/-- Python `l[a:b]` for `int` bounds `a`, `b` (step 1). -/
def pySlice {α : Type} (l : List α) (a b : ℤ) : List α :=
  (l.take (pyBound l.length b)).drop (pyBound l.length a)

/-- Python `range(0, stop, step)` for positive `step`. -/
def pyRangeStep (stop step : ℕ) : List ℕ :=
  (List.range ((stop + step - 1) / step)).map (· * step)

/-- The needle `n` occurs in `h` at position `p` (full occurrence). -/
def occursAt (n h : List Char) (p : ℕ) : Prop :=
  ((h.drop p).take n.length) = n

instance decOccursAt (n h : List Char) (p : ℕ) : Decidable (occursAt n h p) := by
  unfold occursAt
  infer_instance

/-- Helper for `pyFind`: first occurrence of `n` in `h`, offset by `i`. -/
def findFrom (n : List Char) : List Char → ℕ → Option ℕ
  | [], i => if n = [] then some i else none
  | c :: t, i => if (c :: t).take n.length = n then some i else findFrom n t (i + 1)

/-- Python `h.find(n)`: index of the leftmost occurrence (`none` for `-1`). -/
def pyFind (n h : List Char) : Option ℕ := findFrom n h 0

/-- A chunk of the document: text plus character offsets into the document. -/
structure Chunk where
  text : List Char
  start : ℕ
  end_ : ℕ
deriving DecidableEq, Repr

/-- Raw result of one invocation of the external QA capability (chunk-local). -/
structure QARaw where
  answer : List Char
  score : ℚ
  start : ℤ
  end_ : ℤ
deriving DecidableEq, Repr

/-- A scored answer with document-global offsets and its source context. -/
structure ScoredAnswer where
  answer : List Char
  score : ℚ
  start : ℤ
  end_ : ℤ
  context : List Char
deriving DecidableEq, Repr

/-- A challenge-mode question item (optional fields model optional dict keys). -/
structure QuestionItem where
  question : List Char
  context : List Char
  answer_start : Option ℤ
  answer_end : Option ℤ
  context_start : Option ℤ
  context_end : Option ℤ
deriving DecidableEq, Repr

/-- Result of `evaluate_answer`. -/
structure EvalResult where
  is_correct : Bool
  feedback : List Char
  reference : List Char
deriving DecidableEq, Repr

/-- `extract_context` from `question_answering.py`: split the document into
overlapping word windows of 1000 words advancing by 800, with character
offsets computed from cumulative `len(word) + 1` sums. -/
def extract_context (document_text : List Char) : List Chunk :=
  let words := pySplit document_text
  (pyRangeStep words.length (1000 - 200)).map (fun i =>
    let chunk := (words.take (i + 1000)).drop i
    let text := joinWords chunk
    { text := text
      start := sumL (words.take i)
      end_ := sumL (words.take (i + (pySplit text).length)) })

/-- The sentinel answer returned when no chunk scores above 0. -/
def fallbackAnswer : ScoredAnswer :=
  { answer := "I couldn't find a clear answer in the document.".data
    score := 0
    start := 0
    end_ := 0
    context := [] }

/-- Remap a chunk-local QA result to document-global offsets and attach the
chunk text as context (`result['start'] += chunk['start']` etc.). -/
def remapResult (c : Chunk) (r : QARaw) : ScoredAnswer :=
  { answer := r.answer
    score := r.score
    start := r.start + (c.start : ℤ)
    end_ := r.end_ + (c.start : ℤ)
    context := c.text }

/-- The chunk loop of `find_best_answer`: try each chunk, skip failures,
keep the strictly best score (accumulator pair `best_score`, `best_answer`). -/
def scanChunks (qa : List Char → Option QARaw) (chunks : List Chunk) : ScoredAnswer :=
  (chunks.foldl (fun acc c =>
    match qa c.text with
    | none => acc
    | some r =>
      let r' := remapResult c r
      if r'.score > acc.1 then (r'.score, r') else acc) ((0 : ℚ), fallbackAnswer)).2

/-- `find_best_answer` from `question_answering.py`, parametrised by the
external QA capability `qa question context`. -/
def find_best_answer (qa : List Char → List Char → Option QARaw)
    (document_text question : List Char) : ScoredAnswer :=
  scanChunks (qa question) (extract_context document_text)

/-- `highlight_text` from `question_answering.py`. -/
def highlight_text (text : List Char) (start end_ : ℤ) (window : ℤ) : List Char :=
  let s := max 0 (start - window)
  let e := min (text.length : ℤ) (end_ + window)
  let excerpt := pySlice text s e
  let excerpt := if s > 0 then "...".data ++ excerpt else excerpt
  let excerpt := if e < (text.length : ℤ) then excerpt ++ "...".data else excerpt
  pyStrip excerpt

/-- Keyword set of a string: whitespace tokens of length `> 3`, lower-cased,
collected into a set (`set(word.lower() for word in s.split() if len(word) > 3)`). -/
def keywordSet (s : List Char) : Finset (List Char) :=
  (((pySplit s).filter (fun w => 3 < w.length)).map lowerStr).toFinset

/-- The keyword match ratio of `evaluate_answer`:
`len(matching) / max(1, len(answer_keywords))` as exact rational arithmetic. -/
def matchFrac (qd : QuestionItem) (ua : List Char) : ℚ :=
  (((keywordSet ua ∩ keywordSet qd.context).card : ℚ)) /
    ((max 1 (keywordSet ua).card : ℕ) : ℚ)

/-- `evaluate_answer` from `challenge_mode.py`. -/
def evaluate_answer (question_data : QuestionItem) (user_answer : List Char) : EvalResult :=
  if pyStrip user_answer = [] then
    { is_correct := false
      feedback := "Please provide an answer.".data
      reference := question_data.context }
  else if matchFrac question_data user_answer > 1 / 2 then
    { is_correct := true
      feedback := "Your answer appears to be relevant to the document content.".data
      reference := highlight_text question_data.context
        (question_data.answer_start.getD 0) (question_data.answer_end.getD 100) 100 }
  else
    { is_correct := false
      feedback := "Your answer may not fully address the question based on the document content.".data
      reference := highlight_text question_data.context
        (question_data.context_start.getD 0) (question_data.context_end.getD 500) 100 }

/-- The opening highlight marker used by `ask_question`. -/
def spanOpen : List Char := "<span class=\"highlight\">".data

/-- The closing highlight marker used by `ask_question`. -/
def spanClose : List Char := "</span>".data

/-- The inline-highlight step of `ask_question` (`question_answering.py`,
the `if context: pos = context_lower.find(answer_lower) ...` block). -/
def inline_highlight (answer context : List Char) : List Char :=
  if context = [] then context
  else
    match pyFind (lowerStr answer) (lowerStr context) with
    | none => context
    | some pos =>
      let actual := (context.drop pos).take answer.length
      context.take pos ++ spanOpen ++ actual ++ spanClose ++
        context.drop (pos + actual.length)

/-- All successfully scored chunk results, in chunk order, remapped. -/
def successResults (qa : List Char → Option QARaw) (chunks : List Chunk) :
    List ScoredAnswer :=
  chunks.filterMap (fun c => (qa c.text).map (remapResult c))

/-- Maximum score among a list of results (0 when the list is empty). -/
def maxScore (rs : List ScoredAnswer) : ℚ :=
  rs.foldr (fun r m => max r.score m) 0

/-- Modelled from the spec: the best-answer selection described in §4.2 —
take the maximum-score successful chunk result, first-wins on ties, and the
sentinel fallback when no chunk scores strictly above 0. -/
def specBestAnswer (qa : List Char → Option QARaw) (chunks : List Chunk) :
    ScoredAnswer :=
  let rs := successResults qa chunks
  if 0 < maxScore rs then
    (rs.find? (fun r => decide (r.score = maxScore rs))).getD fallbackAnswer
  else fallbackAnswer

/-- Number of words of the `k`-th chunk window (`words[800*k : 800*k + 1000]`). -/
def chunkWordLen (doc : List Char) (k : ℕ) : ℕ :=
  (((pySplit doc).drop (800 * k)).take 1000).length

/-- The word-index range covered by the `k`-th chunk window. -/
def chunkWordRange (doc : List Char) (k : ℕ) : Finset ℕ :=
  Finset.Ico (800 * k) (800 * k + chunkWordLen doc k)

/-! ### Facts about `pySplit`, `joinWords` and `sumL` -/

theorem pySplitF_fuel_irrel : ∀ (f1 : ℕ) (s : List Char), s.length ≤ f1 →
    ∀ (f2 : ℕ), s.length ≤ f2 → pySplitF f1 s = pySplitF f2 s := by
  intro f1
  induction f1 with
  | zero =>
    intro s hs f2 _
    have : s = [] := List.length_eq_zero.mp (Nat.le_zero.mp hs)
    subst this
    cases f2 <;> rfl
  | succ f ih =>
    intro s hs f2 h2
    match s, f2 with
    | [], 0 => rfl
    | [], f2' + 1 => rfl
    | c :: cs, 0 =>
      simp at h2
    | c :: cs, f2' + 1 =>
      simp only [List.length_cons] at hs h2
      simp only [pySplitF]
      by_cases hc : c.isWhitespace
      · rw [if_pos hc, if_pos hc]
        exact ih cs (by omega) f2' (by omega)
      · rw [if_neg hc, if_neg hc]
        congr 1
        have hd := (List.dropWhile_suffix
          (l := cs) (fun d => !d.isWhitespace)).sublist.length_le
        exact ih _ (by omega) f2' (by omega)

theorem pySplit_nil : pySplit [] = [] := rfl

theorem pySplit_cons (c : Char) (cs : List Char) :
    pySplit (c :: cs) = if c.isWhitespace then pySplit cs
      else (c :: cs.takeWhile (fun d => !d.isWhitespace)) ::
        pySplit (cs.dropWhile (fun d => !d.isWhitespace)) := by
  show pySplitF (cs.length + 1) (c :: cs) = _
  simp only [pySplitF]
  have hd := (List.dropWhile_suffix
    (l := cs) (fun d => !d.isWhitespace)).sublist.length_le
  rw [pySplitF_fuel_irrel cs.length _ hd _ (le_refl _)]
  rfl

theorem pySplit_ne_nil : ∀ (s : List Char), ∀ w ∈ pySplit s, w ≠ []
  | [] => by simp [pySplit_nil]
  | c :: cs => by
    by_cases h : c.isWhitespace
    · rw [pySplit_cons, if_pos h]
      exact pySplit_ne_nil cs
    · rw [pySplit_cons, if_neg h]
      intro w hw
      rcases List.mem_cons.mp hw with h1 | h2
      · simp [h1]
      · exact pySplit_ne_nil _ w h2
termination_by s => s.length
decreasing_by
  · simp only [List.length_cons]
    omega
  · have h := (List.dropWhile_suffix (l := cs) (fun d => !d.isWhitespace)).sublist.length_le
    simp only [List.length_cons]
    omega

theorem pySplit_no_ws : ∀ (s : List Char), ∀ w ∈ pySplit s, ∀ c ∈ w, c.isWhitespace = false
  | [] => by simp [pySplit_nil]
  | c :: cs => by
    by_cases h : c.isWhitespace
    · rw [pySplit_cons, if_pos h]
      exact pySplit_no_ws cs
    · rw [pySplit_cons, if_neg h]
      intro w hw d hd
      rcases List.mem_cons.mp hw with h1 | h2
      · subst h1
        rcases List.mem_cons.mp hd with h3 | h4
        · subst h3
          exact Bool.eq_false_iff.mpr h
        · have := List.mem_takeWhile_imp h4
          simpa using this
      · exact pySplit_no_ws _ w h2 d hd
termination_by s => s.length
decreasing_by
  · simp only [List.length_cons]
    omega
  · have h := (List.dropWhile_suffix (l := cs) (fun d => !d.isWhitespace)).sublist.length_le
    simp only [List.length_cons]
    omega

theorem takeWhile_append_of_all {p : Char → Bool} (w l : List Char)
    (h : ∀ c ∈ w, p c = true) :
    (w ++ l).takeWhile p = w ++ l.takeWhile p := by
  induction w with
  | nil => simp
  | cons c cs ih =>
    have hc : p c = true := h c (List.mem_cons_self c cs)
    simp only [List.cons_append, List.takeWhile_cons, hc, if_true]
    rw [ih (fun d hd => h d (List.mem_cons_of_mem c hd))]

theorem dropWhile_append_of_all {p : Char → Bool} (w l : List Char)
    (h : ∀ c ∈ w, p c = true) :
    (w ++ l).dropWhile p = l.dropWhile p := by
  induction w with
  | nil => simp
  | cons c cs ih =>
    have hc : p c = true := h c (List.mem_cons_self c cs)
    simp only [List.cons_append, List.dropWhile_cons, hc, if_true]
    exact ih (fun d hd => h d (List.mem_cons_of_mem c hd))

theorem pySplit_joinWords : ∀ (ws : List (List Char)),
    (∀ w ∈ ws, w ≠ []) → (∀ w ∈ ws, ∀ c ∈ w, c.isWhitespace = false) →
    pySplit (joinWords ws) = ws
  | [], _, _ => by simp [joinWords, pySplit_nil]
  | [w], h1, h2 => by
    have hw : w ≠ [] := h1 w (List.mem_singleton_self w)
    obtain ⟨c, cs, rfl⟩ := List.exists_cons_of_ne_nil hw
    have hc : c.isWhitespace = false := h2 _ (List.mem_singleton_self _) c (List.mem_cons_self c cs)
    have hall : ∀ d ∈ cs, (fun d => !d.isWhitespace) d = true := by
      intro d hd
      have := h2 _ (List.mem_singleton_self _) d (List.mem_cons_of_mem c hd)
      simp [this]
    rw [joinWords, pySplit_cons, if_neg (by simp [hc])]
    rw [List.takeWhile_eq_self_iff.mpr hall]
    rw [List.dropWhile_eq_nil_iff.mpr (fun d hd => by simp [hall d hd])]
    simp [pySplit_nil]
  | w :: w' :: ws, h1, h2 => by
    have hw : w ≠ [] := h1 w (List.mem_cons_self _ _)
    obtain ⟨c, cs, rfl⟩ := List.exists_cons_of_ne_nil hw
    have hc : c.isWhitespace = false := h2 _ (List.mem_cons_self _ _) c (List.mem_cons_self c cs)
    have hall : ∀ d ∈ cs, (fun d => !d.isWhitespace) d = true := by
      intro d hd
      have := h2 _ (List.mem_cons_self _ _) d (List.mem_cons_of_mem c hd)
      simp [this]
    rw [joinWords, List.cons_append, pySplit_cons, if_neg (by simp [hc])]
    rw [takeWhile_append_of_all cs _ hall, dropWhile_append_of_all cs _ hall]
    have hsp : (' ' :: joinWords (w' :: ws)).takeWhile (fun d => !d.isWhitespace) = [] := by
      simp [List.takeWhile_cons]
    have hdr : (' ' :: joinWords (w' :: ws)).dropWhile (fun d => !d.isWhitespace)
        = ' ' :: joinWords (w' :: ws) := by
      simp [List.dropWhile_cons]
    rw [hsp, hdr, List.append_nil]
    have : pySplit (' ' :: joinWords (w' :: ws)) = pySplit (joinWords (w' :: ws)) := by
      rw [pySplit_cons, if_pos (by simp)]
    rw [this, pySplit_joinWords (w' :: ws)
      (fun v hv => h1 v (List.mem_cons_of_mem _ hv))
      (fun v hv => h2 v (List.mem_cons_of_mem _ hv))]

theorem sumL_append (a b : List (List Char)) : sumL (a ++ b) = sumL a + sumL b := by
  induction a with
  | nil => simp [sumL]
  | cons w ws ih =>
    simp only [List.cons_append, sumL, List.append_eq, ih]
    omega

theorem sumL_take_le (l : List (List Char)) (i : ℕ) : sumL (l.take i) ≤ sumL l := by
  conv_rhs => rw [← List.take_append_drop i l]
  rw [sumL_append]
  omega

theorem sumL_take_mono (l : List (List Char)) {i j : ℕ} (h : i ≤ j) :
    sumL (l.take i) ≤ sumL (l.take j) := by
  have : l.take i = (l.take j).take i := by
    rw [List.take_take, min_eq_left h]
  rw [this]
  exact sumL_take_le _ i

theorem sumL_pySplit_le : ∀ (s : List Char), sumL (pySplit s) ≤ s.length + 1
  | [] => by simp [pySplit_nil, sumL]
  | c :: cs => by
    by_cases h : c.isWhitespace
    · rw [pySplit_cons, if_pos h]
      have := sumL_pySplit_le cs
      simp only [List.length_cons]
      omega
    · rw [pySplit_cons, if_neg h]
      have hlen : cs.length = (cs.takeWhile (fun d => !d.isWhitespace)).length
          + (cs.dropWhile (fun d => !d.isWhitespace)).length := by
        conv_lhs => rw [← List.takeWhile_append_dropWhile (p := fun d => !d.isWhitespace) (l := cs)]
        rw [List.length_append]
      rcases hrest : cs.dropWhile (fun d => !d.isWhitespace) with _ | ⟨d, ds⟩
      · have htw : cs.takeWhile (fun d => !d.isWhitespace) = cs := by
          have hsplit := List.takeWhile_append_dropWhile
            (p := fun d => !d.isWhitespace) (l := cs)
          rw [hrest, List.append_nil] at hsplit
          exact hsplit
        rw [hrest, htw]
        simp only [pySplit_nil, sumL, List.length_cons]
        omega
      · have hd : (fun d => !d.isWhitespace) d = false := by
          have := List.head?_dropWhile_not (fun d => !d.isWhitespace) cs
          rw [hrest] at this
          simpa using this
        have hrec : pySplit (d :: ds) = pySplit ds := by
          rw [pySplit_cons, if_pos (by simpa using hd)]
        have hds : sumL (pySplit ds) ≤ ds.length + 1 := sumL_pySplit_le ds
        rw [sumL, hrest, hrec]
        rw [hrest] at hlen
        simp only [List.length_cons] at hlen ⊢
        omega
termination_by s => s.length
decreasing_by
  · simp only [List.length_cons]
    omega
  · have h2 := (List.dropWhile_suffix (l := cs) (fun d => !d.isWhitespace)).sublist.length_le
    rw [hrest] at h2
    simp only [List.length_cons] at h2 ⊢
    omega

theorem joinWords_length : ∀ (ws : List (List Char)), ws ≠ [] →
    (joinWords ws).length + 1 = sumL ws
  | [], h => absurd rfl h
  | [w], _ => by simp [joinWords, sumL]
  | w :: w' :: ws, _ => by
    have ih := joinWords_length (w' :: ws) (by simp)
    rw [joinWords, sumL]
    simp only [List.length_append, List.length_cons]
    omega

/-! ### Structure of `extract_context` -/

theorem length_extract_context (doc : List Char) :
    (extract_context doc).length = ((pySplit doc).length + 799) / 800 := by
  unfold extract_context pyRangeStep
  simp only [List.length_map, List.length_range]
  norm_num

theorem chunk_slice (words : List (List Char)) (i : ℕ) :
    (words.take (i + 1000)).drop i = (words.drop i).take 1000 := by
  rw [List.drop_take]
  congr 1
  omega

theorem pySplit_joinWords_of_sub (doc : List Char) (ws : List (List Char))
    (h : ∀ w ∈ ws, w ∈ pySplit doc) : pySplit (joinWords ws) = ws := by
  apply pySplit_joinWords
  · intro w hw
    exact pySplit_ne_nil doc w (h w hw)
  · intro w hw
    exact pySplit_no_ws doc w (h w hw)

theorem pySplit_chunk_text (doc : List Char) (m : ℕ) :
    pySplit (joinWords (((pySplit doc).drop m).take 1000)) =
      ((pySplit doc).drop m).take 1000 := by
  apply pySplit_joinWords_of_sub
  intro w hw
  exact List.mem_of_mem_drop (List.mem_of_mem_take hw)

theorem extract_context_getElem (doc : List Char) (k : ℕ)
    (hk : k < (extract_context doc).length) :
    (extract_context doc).get ⟨k, hk⟩ =
      { text := joinWords (((pySplit doc).drop (800 * k)).take 1000)
        start := sumL ((pySplit doc).take (800 * k))
        end_ := sumL ((pySplit doc).take (800 * k +
          (((pySplit doc).drop (800 * k)).take 1000).length)) } := by
  unfold extract_context pyRangeStep
  have hk' : k < (((pySplit doc).length + (1000 - 200) - 1) / (1000 - 200)) := by
    have h2 := hk
    rw [length_extract_context] at h2
    norm_num
    omega
  simp only [List.get_eq_getElem, List.getElem_map, List.getElem_range]
  have h800 : (1000 - 200 : ℕ) = 800 := rfl
  rw [h800, Nat.mul_comm k 800, chunk_slice, pySplit_chunk_text]

theorem pySplit_join_replicate (m : ℕ) :
    pySplit (joinWords (List.replicate m ('a' :: []))) = List.replicate m ('a' :: []) := by
  apply pySplit_joinWords
  · intro w hw
    rw [List.eq_of_mem_replicate hw]
    simp
  · intro w hw c hc
    rw [List.eq_of_mem_replicate hw] at hc
    simp at hc
    rw [hc]
    decide

/-! ### Claims about the answer evaluator -/

/-- C8: for every user answer that is empty after trimming whitespace,
`evaluate_answer` returns `is_correct = false` with feedback exactly
"Please provide an answer." and reference equal to the question item's
context. -/
theorem evaluate_answer_empty (qd : QuestionItem) (ua : List Char)
    (h : pyStrip ua = []) :
    evaluate_answer qd ua =
      { is_correct := false
        feedback := "Please provide an answer.".data
        reference := qd.context } := by
  unfold evaluate_answer
  rw [if_pos h]

theorem evaluate_answer_empty_witness :
    pyStrip ("  ".data) = [] ∧
    evaluate_answer ⟨[], "some context".data, none, none, none, none⟩ ("  ".data) =
      { is_correct := false
        feedback := "Please provide an answer.".data
        reference := "some context".data } :=
  ⟨by decide, evaluate_answer_empty ⟨[], "some context".data, none, none, none, none⟩
    ("  ".data) (by decide)⟩

/-- C4: for a non-empty (after trimming) user answer, `evaluate_answer`
returns `is_correct = true` exactly when the keyword match ratio strictly
exceeds 1/2; a ratio of exactly 1/2 yields `is_correct = false`. -/
theorem evaluate_answer_threshold (qd : QuestionItem) (ua : List Char)
    (h : pyStrip ua ≠ []) :
    ((evaluate_answer qd ua).is_correct = true ↔ matchFrac qd ua > 1 / 2) ∧
    (matchFrac qd ua = 1 / 2 → (evaluate_answer qd ua).is_correct = false) := by
  constructor
  · unfold evaluate_answer
    rw [if_neg h]
    by_cases h2 : matchFrac qd ua > 1 / 2
    · rw [if_pos h2]
      simpa using h2
    · rw [if_neg h2]
      simpa using h2
  · intro heq
    unfold evaluate_answer
    rw [if_neg h, if_neg (by rw [heq]; exact lt_irrefl _)]

theorem evaluate_answer_threshold_witness :
    pyStrip ("I think transformers use attention".data) ≠ [] ∧
    (((evaluate_answer
        ⟨[], "Transformers use self attention mechanisms for sequence modeling".data,
          none, none, none, none⟩
        ("I think transformers use attention".data)).is_correct = true ↔
      matchFrac
        ⟨[], "Transformers use self attention mechanisms for sequence modeling".data,
          none, none, none, none⟩
        ("I think transformers use attention".data) > 1 / 2) ∧
    (matchFrac
        ⟨[], "Transformers use self attention mechanisms for sequence modeling".data,
          none, none, none, none⟩
        ("I think transformers use attention".data) = 1 / 2 →
      (evaluate_answer
        ⟨[], "Transformers use self attention mechanisms for sequence modeling".data,
          none, none, none, none⟩
        ("I think transformers use attention".data)).is_correct = false)) :=
  ⟨by decide, evaluate_answer_threshold _ _ (by decide)⟩

/-- C10: on non-empty (after trimming) user answers, the verdict and the
feedback of `evaluate_answer` depend on the user answer only through its
keyword set (lower-cased whitespace tokens of length > 3); in particular
answers differing only in letter case, token order or token repetition are
judged identically. -/
theorem evaluate_answer_keyword_invariance (qd : QuestionItem) (a1 a2 : List Char)
    (h1 : pyStrip a1 ≠ []) (h2 : pyStrip a2 ≠ []) (hk : keywordSet a1 = keywordSet a2) :
    (evaluate_answer qd a1).is_correct = (evaluate_answer qd a2).is_correct ∧
    (evaluate_answer qd a1).feedback = (evaluate_answer qd a2).feedback := by
  have hm : matchFrac qd a1 = matchFrac qd a2 := by
    unfold matchFrac
    rw [hk]
  unfold evaluate_answer
  rw [if_neg h1, if_neg h2, hm]
  by_cases h3 : matchFrac qd a2 > 1 / 2
  · rw [if_pos h3]
    exact ⟨rfl, rfl⟩
  · rw [if_neg h3]
    exact ⟨rfl, rfl⟩

theorem evaluate_answer_keyword_invariance_witness :
    pyStrip ("Deep Learning uses neural networks".data) ≠ [] ∧
    pyStrip ("NEURAL networks networks uses learning deep".data) ≠ [] ∧
    keywordSet ("Deep Learning uses neural networks".data) =
      keywordSet ("NEURAL networks networks uses learning deep".data) ∧
    ((evaluate_answer ⟨[], "neural networks enable deep learning".data, none, none, none, none⟩
        ("Deep Learning uses neural networks".data)).is_correct =
      (evaluate_answer ⟨[], "neural networks enable deep learning".data, none, none, none, none⟩
        ("NEURAL networks networks uses learning deep".data)).is_correct ∧
    (evaluate_answer ⟨[], "neural networks enable deep learning".data, none, none, none, none⟩
        ("Deep Learning uses neural networks".data)).feedback =
      (evaluate_answer ⟨[], "neural networks enable deep learning".data, none, none, none, none⟩
        ("NEURAL networks networks uses learning deep".data)).feedback) :=
  ⟨by decide, by decide, by decide,
    evaluate_answer_keyword_invariance _ _ _ (by decide) (by decide) (by decide)⟩

/-! ### Claims about the chunker -/

/-- C2 (counterexample): the invariant `end <= len(document)` fails: on the
one-character document "a" the single chunk has `end = 2` while the document
has length 1. -/
theorem extract_context_end_cex :
    (extract_context ('a' :: [])).map Chunk.end_ = [2] ∧
    ¬ (2 ≤ ('a' :: [] : List Char).length) := by
  constructor
  · decide
  · decide

/-- C2 (amended): every chunk produced by `extract_context` satisfies
`0 <= start <= end <= len(document) + 1` (the upper bound is one more than
the claimed `len(document)`, since `end` counts one separator per word,
including one after the last word), and the chunks are in left-to-right
order: their start offsets are non-decreasing in list order. -/
theorem extract_context_invariants (doc : List Char) :
    (∀ c ∈ extract_context doc,
      0 ≤ c.start ∧ c.start ≤ c.end_ ∧ c.end_ ≤ doc.length + 1) ∧
    (extract_context doc).Pairwise (fun a b => a.start ≤ b.start) := by
  constructor
  · intro c hc
    unfold extract_context at hc
    simp only [List.mem_map] at hc
    obtain ⟨i, _, rfl⟩ := hc
    refine ⟨Nat.zero_le _, ?_, ?_⟩
    · exact sumL_take_mono _ (by omega)
    · calc sumL ((pySplit doc).take
          (i + (pySplit (joinWords (((pySplit doc).take (i + 1000)).drop i))).length))
          ≤ sumL (pySplit doc) := sumL_take_le _ _
        _ ≤ doc.length + 1 := sumL_pySplit_le doc
  · unfold extract_context pyRangeStep
    rw [List.map_map]
    apply List.Pairwise.map
    · intro a b hab
      exact sumL_take_mono _ (Nat.mul_le_mul_right _ hab)
    · exact List.pairwise_le_range _

theorem extract_context_invariants_witness :
    ({ text := ('a' :: []), start := 0, end_ := 2 } ∈ extract_context ('a' :: [])) ∧
    (0 ≤ ({ text := ('a' :: []), start := 0, end_ := 2 } : Chunk).start ∧
     ({ text := ('a' :: []), start := 0, end_ := 2 } : Chunk).start ≤
       ({ text := ('a' :: []), start := 0, end_ := 2 } : Chunk).end_ ∧
     ({ text := ('a' :: []), start := 0, end_ := 2 } : Chunk).end_ ≤
       ('a' :: [] : List Char).length + 1) := by
  refine ⟨by decide, ?_⟩
  exact (extract_context_invariants ('a' :: [])).1
    { text := ('a' :: []), start := 0, end_ := 2 } (by decide)

/-- C1 (counterexample): on the one-word document "a" (word count 1 ≤ 1000)
the single chunk has offsets `[0, 2]`, not `[0, len(document)] = [0, 1]`,
even though "a" is exactly the single-space join of its words; moreover a
single-space-joined document of 801 words (word count ≤ 1000) yields two
chunks, not one. -/
theorem extract_context_one_chunk_cex :
    ((extract_context ('a' :: [])).map Chunk.end_ ≠ [('a' :: [] : List Char).length]) ∧
    ((pySplit (joinWords (List.replicate 801 ('a' :: [])))).length ≤ 1000 ∧
      (extract_context (joinWords (List.replicate 801 ('a' :: [])))).length ≠ 1) := by
  refine ⟨by decide, ?_, ?_⟩
  · rw [pySplit_join_replicate, List.length_replicate]
    omega
  · rw [length_extract_context, pySplit_join_replicate, List.length_replicate]
    norm_num

/-- C1 (amended): for every document whose whitespace-split word count lies
in `[1, 800]`, `extract_context` returns exactly one chunk; its text is the
single-space join of the words, its start offset is 0 and its end offset is
the length of that join plus one (i.e. `len(document) + 1` under the
single-space word-join approximation, not `len(document)`). -/
theorem extract_context_single_chunk (doc : List Char)
    (h1 : 1 ≤ (pySplit doc).length) (h2 : (pySplit doc).length ≤ 800) :
    extract_context doc =
      [{ text := joinWords (pySplit doc)
         start := 0
         end_ := (joinWords (pySplit doc)).length + 1 }] := by
  have hne : pySplit doc ≠ [] := by
    intro hnil
    rw [hnil] at h1
    simp at h1
  have hrt : pySplit (joinWords (pySplit doc)) = pySplit doc :=
    pySplit_joinWords_of_sub doc _ (fun w hw => hw)
  have hr : ((pySplit doc).length + (1000 - 200) - 1) / (1000 - 200) = 1 := by
    have h800 : (1000 - 200 : ℕ) = 800 := rfl
    rw [h800]
    exact Nat.div_eq_of_lt_le (by omega) (by omega)
  unfold extract_context pyRangeStep
  dsimp only
  rw [hr]
  have h0 : List.range 1 = [0] := rfl
  rw [h0]
  simp only [List.map_cons, List.map_nil, Nat.zero_mul, List.drop_zero, Nat.zero_add]
  rw [List.take_of_length_le (by omega : (pySplit doc).length ≤ 1000), hrt]
  rw [List.take_zero, List.take_length]
  rw [← joinWords_length _ hne]
  simp [sumL]

theorem extract_context_single_chunk_witness :
    (1 ≤ (pySplit ("ab cd".data)).length ∧ (pySplit ("ab cd".data)).length ≤ 800) ∧
    extract_context ("ab cd".data) =
      [{ text := joinWords (pySplit ("ab cd".data))
         start := 0
         end_ := (joinWords (pySplit ("ab cd".data))).length + 1 }] :=
  ⟨⟨by decide, by decide⟩,
    extract_context_single_chunk ("ab cd".data) (by decide) (by decide)⟩

/-- C7: for every pair of consecutive chunks whose second member is not the
final chunk, the word-index ranges of the two chunks overlap in exactly 200
word positions (the pair involving the final chunk may overlap less); the
`k`-th chunk's text is the join of the 1000-word window starting at word
`800 * k`. -/
theorem chunk_overlap (doc : List Char) (k : ℕ)
    (h : k + 2 < (extract_context doc).length) :
    ((extract_context doc).getD k { text := [], start := 0, end_ := 0 }).text
        = joinWords (((pySplit doc).drop (800 * k)).take 1000) ∧
    (chunkWordRange doc k ∩ chunkWordRange doc (k + 1)).card = 200 := by
  have hlen := length_extract_context doc
  have hk3 : k + 3 ≤ ((pySplit doc).length + 799) / 800 := by omega
  have hbound : (k + 3) * 800 ≤ (pySplit doc).length + 799 := by
    calc (k + 3) * 800 ≤ (((pySplit doc).length + 799) / 800) * 800 :=
          Nat.mul_le_mul_right _ hk3
      _ ≤ (pySplit doc).length + 799 := Nat.div_mul_le_self _ _
  have hkl : k < (extract_context doc).length := by omega
  have hlen_k1 : 200 ≤ chunkWordLen doc (k + 1) := by
    unfold chunkWordLen
    simp only [List.length_take, List.length_drop]
    omega
  constructor
  · rw [List.getD_eq_get _ _ hkl, extract_context_getElem doc k hkl]
  · unfold chunkWordRange
    have hlen_k : chunkWordLen doc k = 1000 := by
      unfold chunkWordLen
      simp only [List.length_take, List.length_drop]
      omega
    rw [Finset.Ico_inter_Ico, Nat.card_Ico, hlen_k]
    omega

theorem chunk_overlap_witness :
    (0 + 2 < (extract_context (joinWords (List.replicate 1601 ('a' :: [])))).length) ∧
    (((extract_context (joinWords (List.replicate 1601 ('a' :: [])))).getD 0
        { text := [], start := 0, end_ := 0 }).text
      = joinWords (((pySplit (joinWords (List.replicate 1601 ('a' :: [])))).drop
          (800 * 0)).take 1000) ∧
    (chunkWordRange (joinWords (List.replicate 1601 ('a' :: []))) 0 ∩
      chunkWordRange (joinWords (List.replicate 1601 ('a' :: []))) (0 + 1)).card = 200) := by
  have h : 0 + 2 < (extract_context (joinWords (List.replicate 1601 ('a' :: [])))).length := by
    rw [length_extract_context, pySplit_join_replicate, List.length_replicate]
    norm_num
  exact ⟨h, chunk_overlap (joinWords (List.replicate 1601 ('a' :: []))) 0 h⟩

/-! ### The best-answer selector -/

theorem scanChunks_foldl_aux (qa : List Char → Option QARaw) :
    ∀ (chunks : List Chunk) (b : ScoredAnswer),
    (chunks.foldl (fun acc c =>
      match qa c.text with
      | none => acc
      | some r =>
        let r' := remapResult c r
        if r'.score > acc.1 then (r'.score, r') else acc) (b.score, b)).2 =
    (successResults qa chunks).foldl
      (fun b r => if r.score > b.score then r else b) b := by
  intro chunks
  induction chunks with
  | nil =>
    intro b
    rfl
  | cons c cs ih =>
    intro b
    simp only [List.foldl_cons, successResults, List.filterMap_cons]
    cases hqa : qa c.text with
    | none =>
      simp only [hqa]
      exact ih b
    | some r =>
      simp only [hqa, Option.map_some', List.foldl_cons]
      by_cases hlt : (remapResult c r).score > b.score
      · rw [if_pos hlt, if_pos hlt]
        exact ih (remapResult c r)
      · rw [if_neg hlt, if_neg hlt]
        exact ih b

theorem scanChunks_eq_foldl (qa : List Char → Option QARaw) (chunks : List Chunk) :
    scanChunks qa chunks = (successResults qa chunks).foldl
      (fun b r => if r.score > b.score then r else b) fallbackAnswer := by
  unfold scanChunks
  exact scanChunks_foldl_aux qa chunks fallbackAnswer

theorem maxScore_cons (r : ScoredAnswer) (t : List ScoredAnswer) :
    maxScore (r :: t) = max r.score (maxScore t) := rfl

theorem maxScore_nonneg (rs : List ScoredAnswer) : 0 ≤ maxScore rs := by
  induction rs with
  | nil => exact le_refl 0
  | cons r t ih =>
    rw [maxScore_cons]
    exact le_trans ih (le_max_right _ _)

theorem maxScore_mem (rs : List ScoredAnswer) (h : maxScore rs ≠ 0) :
    ∃ r ∈ rs, r.score = maxScore rs := by
  induction rs with
  | nil => exact absurd rfl h
  | cons r t ih =>
    rcases le_total (maxScore t) r.score with hle | hle
    · refine ⟨r, List.mem_cons_self r t, ?_⟩
      rw [maxScore_cons, max_eq_left hle]
    · by_cases ht : maxScore t = 0
      · exfalso
        apply h
        rw [maxScore_cons, max_eq_right hle, ht]
      · obtain ⟨x, hx, hxs⟩ := ih ht
        refine ⟨x, List.mem_cons_of_mem r hx, ?_⟩
        rw [maxScore_cons, max_eq_right hle, hxs]

theorem find?_maxScore_isSome (rs : List ScoredAnswer) (h : maxScore rs ≠ 0) :
    ∃ x, rs.find? (fun r => decide (r.score = maxScore rs)) = some x := by
  obtain ⟨r, hr, hrs⟩ := maxScore_mem rs h
  have hsome : (rs.find? (fun r => decide (r.score = maxScore rs))).isSome = true := by
    apply List.find?_isSome.mpr
    refine ⟨r, hr, ?_⟩
    rw [hrs]
    exact decide_eq_true rfl
  exact Option.isSome_iff_exists.mp hsome

theorem foldl_best_spec :
    ∀ (rs : List ScoredAnswer) (b : ScoredAnswer), 0 ≤ b.score →
    rs.foldl (fun b r => if r.score > b.score then r else b) b =
      if b.score < maxScore rs then
        (rs.find? (fun r => decide (r.score = maxScore rs))).getD b
      else b := by
  intro rs
  induction rs with
  | nil =>
    intro b hb
    have h0 : maxScore [] = 0 := rfl
    rw [List.foldl_nil, h0, if_neg (not_lt.mpr hb)]
  | cons r t ih =>
    intro b hb
    rw [List.foldl_cons]
    by_cases hrb : r.score > b.score
    · rw [if_pos hrb]
      rw [ih r (le_of_lt (lt_of_le_of_lt hb hrb))]
      by_cases hmt : r.score < maxScore t
      · have hM : maxScore (r :: t) = maxScore t := by
          rw [maxScore_cons]
          exact max_eq_right (le_of_lt hmt)
        have hne : (decide (r.score = maxScore t)) = false := by
          simp
          exact ne_of_lt hmt
        have hfind : (r :: t).find? (fun x => decide (x.score = maxScore t)) =
            t.find? (fun x => decide (x.score = maxScore t)) := by
          rw [List.find?_cons, hne]
        have hmt0 : maxScore t ≠ 0 := by
          intro h0
          rw [h0] at hmt
          exact absurd (lt_of_le_of_lt hb (lt_trans hrb hmt)) (lt_irrefl 0)
        obtain ⟨x, hx⟩ := find?_maxScore_isSome t hmt0
        rw [if_pos hmt, hM, hfind, hx]
        rw [if_pos (lt_trans hrb hmt)]
        rfl
      · push_neg at hmt
        have hM : maxScore (r :: t) = r.score := by
          rw [maxScore_cons]
          exact max_eq_left hmt
        rw [if_neg (not_lt.mpr hmt), hM, if_pos hrb]
        have hfind : (r :: t).find? (fun x => decide (x.score = r.score)) = some r := by
          rw [List.find?_cons]
          simp
        rw [hfind]
        rfl
    · rw [if_neg hrb]
      push_neg at hrb
      rw [ih b hb]
      by_cases hbt : b.score < maxScore t
      · have hM : maxScore (r :: t) = maxScore t := by
          rw [maxScore_cons]
          exact max_eq_right (le_trans hrb (le_of_lt hbt))
        have hne : (decide (r.score = maxScore t)) = false := by
          simp
          intro he
          rw [he] at hrb
          exact absurd hbt (not_lt.mpr hrb)
        have hfind : (r :: t).find? (fun x => decide (x.score = maxScore t)) =
            t.find? (fun x => decide (x.score = maxScore t)) := by
          rw [List.find?_cons, hne]
        rw [if_pos hbt, hM, hfind]
        rw [if_pos hbt]
      · push_neg at hbt
        have hM' : ¬ (b.score < maxScore (r :: t)) := by
          rw [maxScore_cons]
          exact not_lt.mpr (max_le hrb hbt)
        rw [if_neg (not_lt.mpr hbt), if_neg hM']

/-- C3: `find_best_answer` returns exactly the best-answer selection the
spec describes: the remapped result of the chunk with the maximum capability
score (first-wins on equal scores), and the sentinel fallback answer (score
0, offsets 0, empty context) when no chunk scores strictly above 0. -/
theorem find_best_answer_eq_spec (qa : List Char → List Char → Option QARaw)
    (document_text question : List Char) :
    find_best_answer qa document_text question =
      specBestAnswer (qa question) (extract_context document_text) := by
  unfold find_best_answer specBestAnswer
  rw [scanChunks_eq_foldl]
  have hb : (0 : ℚ) ≤ fallbackAnswer.score := le_refl 0
  rw [foldl_best_spec _ fallbackAnswer hb]
  rfl

/-- C6: the failure policy of `find_best_answer` — a chunk on which the
capability fails (modelled as `none`) is skipped with the best-so-far
retained, and if the capability fails on every chunk the function returns
the sentinel fallback answer instead of propagating the failure. -/
theorem find_best_answer_failure_policy (qa : List Char → List Char → Option QARaw)
    (document_text question : List Char) :
    ((∀ c ∈ extract_context document_text, qa question c.text = none) →
      find_best_answer qa document_text question = fallbackAnswer) ∧
    (∀ (l1 l2 : List Chunk) (c : Chunk), qa question c.text = none →
      scanChunks (qa question) (l1 ++ c :: l2) = scanChunks (qa question) (l1 ++ l2)) := by
  constructor
  · intro hall
    unfold find_best_answer
    rw [scanChunks_eq_foldl]
    have hnil : successResults (qa question) (extract_context document_text) = [] := by
      unfold successResults
      rw [List.filterMap_eq_nil]
      intro c hc
      rw [hall c hc]
      rfl
    rw [hnil]
    rfl
  · intro l1 l2 c hc
    rw [scanChunks_eq_foldl, scanChunks_eq_foldl]
    have hsucc : successResults (qa question) (l1 ++ c :: l2) =
        successResults (qa question) (l1 ++ l2) := by
      unfold successResults
      rw [List.filterMap_append, List.filterMap_append, List.filterMap_cons, hc]
      rfl
    rw [hsucc]

theorem find_best_answer_failure_policy_witness :
    (∀ c ∈ extract_context ("a b".data),
      (fun (_ _ : List Char) => (none : Option QARaw)) ("q".data) c.text = none) ∧
    find_best_answer (fun _ _ => none) ("a b".data) ("q".data) = fallbackAnswer :=
  ⟨fun _ _ => rfl,
    (find_best_answer_failure_policy (fun _ _ => none) ("a b".data) ("q".data)).1
      (fun _ _ => rfl)⟩

/-! ### The highlighter -/

theorem dropWhile_ws_dots_append (x : List Char) :
    ("...".data ++ x).dropWhile Char.isWhitespace = "...".data ++ x := by
  have h : ("...".data ++ x) = '.' :: ("..".data ++ x) := rfl
  rw [h, List.dropWhile_cons, if_neg (by decide)]

theorem dropWhile_ws_append_dots (x : List Char) :
    (x ++ "...".data).dropWhile Char.isWhitespace =
      (x.dropWhile Char.isWhitespace) ++ "...".data := by
  rw [List.dropWhile_append]
  by_cases he : (x.dropWhile Char.isWhitespace).isEmpty
  · rw [if_pos he]
    rw [List.isEmpty_iff] at he
    rw [he, List.nil_append]
    have h : ("...".data : List Char) = "...".data ++ ([] : List Char) := by simp
    rw [h, dropWhile_ws_dots_append]
  · rw [if_neg he]

theorem reverse_dots : ("...".data : List Char).reverse = "...".data := rfl

theorem strip_dots_both (x : List Char) :
    pyStrip ("...".data ++ x ++ "...".data) = "...".data ++ x ++ "...".data := by
  unfold pyStrip
  rw [List.append_assoc, dropWhile_ws_dots_append, ← List.append_assoc]
  rw [List.reverse_append, List.reverse_append, reverse_dots]
  rw [List.append_assoc, dropWhile_ws_dots_append, ← List.append_assoc]
  rw [List.reverse_append, List.reverse_append, reverse_dots]
  simp

theorem strip_dots_left (x : List Char) :
    pyStrip ("...".data ++ x) =
      "...".data ++ (x.reverse.dropWhile Char.isWhitespace).reverse := by
  unfold pyStrip
  rw [dropWhile_ws_dots_append]
  rw [List.reverse_append, reverse_dots]
  rw [dropWhile_ws_append_dots]
  rw [List.reverse_append, reverse_dots]

theorem strip_dots_right (x : List Char) :
    pyStrip (x ++ "...".data) = (x.dropWhile Char.isWhitespace) ++ "...".data := by
  unfold pyStrip
  rw [dropWhile_ws_append_dots]
  rw [List.reverse_append, reverse_dots]
  rw [dropWhile_ws_dots_append]
  rw [List.reverse_append, reverse_dots]
  simp

theorem trimRightIsPre (x : List Char) :
    (x.reverse.dropWhile Char.isWhitespace).reverse <+: x := by
  have h := List.dropWhile_suffix (l := x.reverse) Char.isWhitespace
  have h2 : (x.reverse.dropWhile Char.isWhitespace).reverse <+: x.reverse.reverse :=
    List.reverse_prefix.mpr h
  rwa [List.reverse_reverse] at h2

theorem pyStripIsSub (l : List Char) : pyStrip l <:+: l := by
  have h1 : (l.dropWhile Char.isWhitespace) <:+ l := List.dropWhile_suffix _
  have h2 := trimRightIsPre (l.dropWhile Char.isWhitespace)
  exact h2.isInfix.trans h1.isInfix

theorem sliceIsSub {α : Type} (text : List α) (a b : ℕ) :
    (text.take b).drop a <:+: text :=
  (List.drop_suffix _ _).isInfix.trans (List.take_prefix _ _).isInfix

theorem pySliceIsSub {α : Type} (l : List α) (a b : ℤ) : pySlice l a b <:+: l := by
  unfold pySlice
  exact sliceIsSub l _ _

/-- C5: `highlight_text` (total in this model, hence never raising) returns
the Python slice of `text` over the clamped range
`[max(0, start - window), min(len(text), end + window)]`, prefixed with
"..." exactly when the clamped start is positive and suffixed with "..."
exactly when the clamped end is below `len(text)`, the whole trimmed of
leading/trailing whitespace; and the result is always of the form
optional-"..." ++ (a contiguous substring of `text`) ++ optional-"...". -/
theorem highlight_text_spec (text : List Char) (s e w : ℤ)
    (h0 : 0 ≤ s) (hse : s ≤ e) (he : e ≤ (text.length : ℤ)) (hw : 0 ≤ w) :
    highlight_text text s e w =
      pyStrip ((if max 0 (s - w) > 0 then "...".data else []) ++
        pySlice text (max 0 (s - w)) (min (text.length : ℤ) (e + w)) ++
        (if min (text.length : ℤ) (e + w) < (text.length : ℤ) then "...".data else [])) ∧
    ∃ t, t <:+: text ∧
      highlight_text text s e w =
        (if max 0 (s - w) > 0 then "...".data else []) ++ t ++
        (if min (text.length : ℤ) (e + w) < (text.length : ℤ) then "...".data else []) := by
  have hmain : highlight_text text s e w =
      pyStrip ((if max 0 (s - w) > 0 then "...".data else []) ++
        pySlice text (max 0 (s - w)) (min (text.length : ℤ) (e + w)) ++
        (if min (text.length : ℤ) (e + w) < (text.length : ℤ) then "...".data else [])) := by
    unfold highlight_text
    dsimp only
    by_cases ha : max 0 (s - w) > 0 <;>
      by_cases hb : min (text.length : ℤ) (e + w) < (text.length : ℤ)
    · simp only [if_pos ha, if_pos hb, List.append_assoc]
    · simp only [if_pos ha, if_neg hb, List.append_nil]
    · simp only [if_neg ha, if_pos hb, List.nil_append]
    · simp only [if_neg ha, if_neg hb, List.nil_append, List.append_nil]
  refine ⟨hmain, ?_⟩
  by_cases ha : max 0 (s - w) > 0 <;>
    by_cases hb : min (text.length : ℤ) (e + w) < (text.length : ℤ)
  · refine ⟨pySlice text (max 0 (s - w)) (min (text.length : ℤ) (e + w)),
      pySliceIsSub text _ _, ?_⟩
    rw [hmain]
    simp only [if_pos ha, if_pos hb]
    exact strip_dots_both _
  · refine ⟨((pySlice text (max 0 (s - w)) (min (text.length : ℤ) (e + w))).reverse.dropWhile
        Char.isWhitespace).reverse,
      (trimRightIsPre _).isInfix.trans (pySliceIsSub text _ _), ?_⟩
    rw [hmain]
    simp only [if_pos ha, if_neg hb, List.append_nil]
    exact strip_dots_left _
  · refine ⟨(pySlice text (max 0 (s - w)) (min (text.length : ℤ) (e + w))).dropWhile
        Char.isWhitespace,
      (List.dropWhile_suffix _).isInfix.trans (pySliceIsSub text _ _), ?_⟩
    rw [hmain]
    simp only [if_neg ha, if_pos hb, List.nil_append]
    exact strip_dots_right _
  · refine ⟨pyStrip (pySlice text (max 0 (s - w)) (min (text.length : ℤ) (e + w))),
      (pyStripIsSub _).trans (pySliceIsSub text _ _), ?_⟩
    rw [hmain]
    simp only [if_neg ha, if_neg hb, List.nil_append, List.append_nil]

theorem highlight_text_spec_witness :
    ((0 : ℤ) ≤ 4 ∧ (4 : ℤ) ≤ 6 ∧ (6 : ℤ) ≤ (("0123456789".data : List Char).length : ℤ) ∧
      (0 : ℤ) ≤ 2) ∧
    (highlight_text ("0123456789".data) 4 6 2 =
      pyStrip ((if max 0 (4 - 2 : ℤ) > 0 then "...".data else []) ++
        pySlice ("0123456789".data) (max 0 (4 - 2 : ℤ))
          (min (("0123456789".data : List Char).length : ℤ) (6 + 2)) ++
        (if min (("0123456789".data : List Char).length : ℤ) (6 + 2) <
            (("0123456789".data : List Char).length : ℤ) then "...".data else [])) ∧
    ∃ t, t <:+: ("0123456789".data : List Char) ∧
      highlight_text ("0123456789".data) 4 6 2 =
        (if max 0 (4 - 2 : ℤ) > 0 then "...".data else []) ++ t ++
        (if min (("0123456789".data : List Char).length : ℤ) (6 + 2) <
            (("0123456789".data : List Char).length : ℤ) then "...".data else [])) :=
  ⟨⟨by norm_num, by norm_num, by norm_num, by norm_num⟩,
    highlight_text_spec ("0123456789".data) 4 6 2 (by norm_num) (by norm_num)
      (by norm_num) (by norm_num)⟩

/-! ### The inline highlighter of `ask_question` -/

theorem findFrom_some (n : List Char) :
    ∀ (h : List Char) (i j : ℕ), findFrom n h i = some j →
      i ≤ j ∧ occursAt n h (j - i) ∧ ∀ q, q < j - i → ¬ occursAt n h q := by
  intro h
  induction h with
  | nil =>
    intro i j hf
    rw [findFrom] at hf
    by_cases hn : n = []
    · rw [if_pos hn] at hf
      have hij : i = j := Option.some.inj hf
      subst hij
      refine ⟨le_refl i, ?_, ?_⟩
      · show (([] : List Char).drop (i - i)).take n.length = n
        rw [hn]
        simp
      · intro q hq
        omega
    · rw [if_neg hn] at hf
      exact absurd hf (by simp)
  | cons c t ih =>
    intro i j hf
    rw [findFrom] at hf
    by_cases hc : (c :: t).take n.length = n
    · rw [if_pos hc] at hf
      have hij : i = j := Option.some.inj hf
      subst hij
      refine ⟨le_refl i, ?_, ?_⟩
      · show ((c :: t).drop (i - i)).take n.length = n
        rw [Nat.sub_self]
        exact hc
      · intro q hq
        omega
    · rw [if_neg hc] at hf
      obtain ⟨h1, h2, h3⟩ := ih (i + 1) j hf
      refine ⟨by omega, ?_, ?_⟩
      · have he : j - i = (j - (i + 1)) + 1 := by omega
        rw [he]
        exact h2
      · intro q hq
        match q with
        | 0 =>
          intro hocc
          exact hc hocc
        | m + 1 =>
          exact h3 m (by omega)

theorem findFrom_none (n : List Char) :
    ∀ (h : List Char) (i : ℕ), findFrom n h i = none → ∀ q, ¬ occursAt n h q := by
  intro h
  induction h with
  | nil =>
    intro i hf q hocc
    rw [findFrom] at hf
    by_cases hn : n = []
    · rw [if_pos hn] at hf
      simp at hf
    · rw [if_neg hn] at hf
      apply hn
      have : (([] : List Char).drop q).take n.length = n := hocc
      simpa using this.symm
  | cons c t ih =>
    intro i hf q hocc
    rw [findFrom] at hf
    by_cases hc : (c :: t).take n.length = n
    · rw [if_pos hc] at hf
      simp at hf
    · rw [if_neg hc] at hf
      match q with
      | 0 => exact hc hocc
      | m + 1 => exact ih (i + 1) hf m hocc

/-- C9: the inline presentation step searches for the answer inside the
context case-insensitively; when a match exists it splits the context as
`pre ++ mid ++ post` at the leftmost match, where `mid` is the exact-cased
matched substring (its lower-casing equals the lower-cased answer), and wraps
exactly `mid` in the highlight markers leaving `pre` and `post` unchanged;
when no match exists the context is returned unmarked (and the function is
total, so no error is raised). -/
theorem inline_highlight_spec (answer context : List Char) (hne : answer ≠ []) :
    ((∀ p, ¬ occursAt (lowerStr answer) (lowerStr context) p) →
      inline_highlight answer context = context) ∧
    ((∃ p, occursAt (lowerStr answer) (lowerStr context) p) →
      ∃ pre mid post, context = pre ++ mid ++ post ∧
        lowerStr mid = lowerStr answer ∧
        occursAt (lowerStr answer) (lowerStr context) pre.length ∧
        (∀ q, q < pre.length → ¬ occursAt (lowerStr answer) (lowerStr context) q) ∧
        inline_highlight answer context =
          pre ++ spanOpen ++ mid ++ spanClose ++ post) := by
  constructor
  · intro hnone
    unfold inline_highlight
    by_cases hctx : context = []
    · rw [if_pos hctx]
    · rw [if_neg hctx]
      cases hfind : pyFind (lowerStr answer) (lowerStr context) with
      | none => rfl
      | some p =>
        obtain ⟨-, hocc, -⟩ := findFrom_some _ _ 0 p hfind
        exact absurd hocc (hnone (p - 0))
  · rintro ⟨p, hp⟩
    have hla : (lowerStr answer).length = answer.length := List.length_map _ _
    have hlc : (lowerStr context).length = context.length := List.length_map _ _
    have hctx : context ≠ [] := by
      intro hnil
      subst hnil
      have : (([] : List Char).take (lowerStr answer).length) = lowerStr answer := by
        have h2 : ((lowerStr ([] : List Char)).drop p).take (lowerStr answer).length
            = lowerStr answer := hp
        simpa [lowerStr] using h2
      apply hne
      have h3 := congrArg List.length this
      simp at h3
      rw [← List.length_eq_zero, ← hla, ← h3]
    cases hfind : pyFind (lowerStr answer) (lowerStr context) with
    | none => exact absurd hp (findFrom_none _ _ 0 hfind p)
    | some pos =>
      obtain ⟨-, hocc, hmin⟩ := findFrom_some _ _ 0 pos hfind
      rw [Nat.sub_zero] at hocc
      have hocc' : ((lowerStr context).drop pos).take (lowerStr answer).length
          = lowerStr answer := hocc
      have hlen2 : pos + answer.length ≤ context.length := by
        have h4 := congrArg List.length hocc'
        simp only [List.length_take, List.length_drop, hla, hlc] at h4
        have h5 : 1 ≤ answer.length := by
          rcases answer with _ | ⟨a, t⟩
          · exact absurd rfl hne
          · simp
        omega
      refine ⟨context.take pos, (context.drop pos).take answer.length,
        context.drop (pos + answer.length), ?_, ?_, ?_, ?_, ?_⟩
      · conv_lhs => rw [← List.take_append_drop pos context]
        rw [List.append_assoc]
        congr 1
        conv_lhs => rw [← List.take_append_drop answer.length (context.drop pos)]
        rw [List.drop_drop]
      · unfold lowerStr
        rw [List.map_take, List.map_drop]
        rw [← hla]
        exact hocc'
      · have hpre : (context.take pos).length = pos := by
          rw [List.length_take]
          have h5 : 1 ≤ answer.length := by
            rcases answer with _ | ⟨a, t⟩
            · exact absurd rfl hne
            · simp
          omega
        rw [hpre]
        exact hocc
      · intro q hq
        apply hmin
        rw [List.length_take] at hq
        omega
      · unfold inline_highlight
        rw [if_neg hctx]
        simp only [hfind]
        have hmidlen : ((context.drop pos).take answer.length).length = answer.length := by
          simp only [List.length_take, List.length_drop]
          omega
        rw [hmidlen]

theorem inline_highlight_spec_witness :
    ("Cat".data ≠ ([] : List Char)) ∧
    (∃ p, occursAt (lowerStr "Cat".data) (lowerStr "the cat sat".data) p) ∧
    (∃ pre mid post, "the cat sat".data = pre ++ mid ++ post ∧
      lowerStr mid = lowerStr "Cat".data ∧
      occursAt (lowerStr "Cat".data) (lowerStr "the cat sat".data) pre.length ∧
      (∀ q, q < pre.length →
        ¬ occursAt (lowerStr "Cat".data) (lowerStr "the cat sat".data) q) ∧
      inline_highlight "Cat".data "the cat sat".data =
        pre ++ spanOpen ++ mid ++ spanClose ++ post) :=
  ⟨by decide, ⟨4, by decide⟩,
    (inline_highlight_spec "Cat".data "the cat sat".data (by decide)).2 ⟨4, by decide⟩⟩
